import Mathlib

/-!
Verification development for the Unigram subword trainer of this repository.

The repository sources under `src/` contain the Python binding layer
(`sentencepiece_unigram.py`), which configures the trainer and delegates the
algorithmic core (seed generation, EM refinement on segmentation lattices,
pruning, orchestration) to a component that is not part of the provided
sources.  Following the specification, that core is modelled here.

Numeric convention: the specification carries piece scores as natural-log
probabilities.  We represent each score by the underlying probability, an
exact rational (`ℚ`), so a sum of log-scores along a segmentation path
corresponds to a product of rationals here, and "highest total
log-probability" corresponds to "largest product".  Exact rational
arithmetic has no underflow, which is all the log-space convention exists
to prevent.
-/

/-- A piece: surface string (as a list of characters) with its score. -/
abbrev Piece := List Char × ℚ

/-- A vocabulary: ordered sequence of pieces. -/
abbrev Vocab := List Piece

/-- A frequency table: word → positive count, as an ordered association list. -/
abbrev FreqTable := List (List Char × Nat)

/-- The surface strings of a vocabulary, in order. -/
def surfaces (v : Vocab) : List (List Char) := v.map Prod.fst

/-- PieceIndex query: all vocabulary pieces that match at the start of `w`
(the "all pieces that are a prefix of the remaining suffix" query). -/
def candidates (v : Vocab) (w : List Char) : Vocab :=
  v.filter (fun p => !p.1.isEmpty && p.1.isPrefixOf w)

theorem candidates_sound {v : Vocab} {w : List Char} {p : Piece}
    (h : p ∈ candidates v w) : p ∈ v ∧ p.1 ≠ [] ∧ p.1 <+: w := by
  have h' := List.mem_filter.mp h
  have h2 := h'.2
  simp only [Bool.and_eq_true, Bool.not_eq_true', List.isEmpty_eq_false,
    List.isPrefixOf_iff_prefix] at h2
  exact ⟨h'.1, h2.1, h2.2⟩

theorem candidates_complete {v : Vocab} {w : List Char} {p : Piece}
    (hv : p ∈ v) (hne : p.1 ≠ []) (hpre : p.1 <+: w) : p ∈ candidates v w := by
  refine List.mem_filter.mpr ⟨hv, ?_⟩
  simp only [Bool.and_eq_true, Bool.not_eq_true', List.isEmpty_eq_false,
    List.isPrefixOf_iff_prefix]
  exact ⟨hne, hpre⟩

/-- Keep the better of two optional (segmentation, weight) results,
preferring the earlier one on ties (deterministic tie-break). -/
def better (a b : Option (List (List Char) × ℚ)) : Option (List (List Char) × ℚ) :=
  match a, b with
  | none, b => b
  | some x, none => some x
  | some x, some y => if x.2 < y.2 then some y else some x

/-- Best result among a list of optional candidates. -/
def pickBest (l : List (Option (List (List Char) × ℚ))) :
    Option (List (List Char) × ℚ) :=
  l.foldl better none

/-- Modelled from the spec (§4.3 LatticeEngine, Viterbi decode; the engine
itself is not among the provided sources): the highest-weight segmentation
of `w` into vocabulary pieces, returned together with its weight (product
of piece probabilities), or `none` when no complete segmentation exists. -/
def viterbi (v : Vocab) (w : List Char) : Option (List (List Char) × ℚ) :=
  if hw : w = [] then some ([], 1)
  else
    pickBest ((candidates v w).attach.map (fun pp =>
      (viterbi v (w.drop pp.1.1.length)).map (fun sr =>
        (pp.1.1 :: sr.1, pp.1.2 * sr.2))))
termination_by w.length
decreasing_by
  simp only [List.length_drop]
  have h := candidates_sound pp.2
  have h1 : 0 < pp.1.1.length := List.length_pos.mpr h.2.1
  have h2 : 0 < w.length := List.length_pos.mpr hw
  omega

/-- Modelled from the spec (§4.3 LatticeEngine; not among the provided
sources): all complete segmentations of `w` into vocabulary pieces — the
paths of the segmentation lattice. -/
def segmentations (v : Vocab) (w : List Char) : List (List Piece) :=
  if hw : w = [] then [[]]
  else
    ((candidates v w).attach.map (fun pp =>
      (segmentations v (w.drop pp.1.1.length)).map (fun sr => pp.1 :: sr))).flatten
termination_by w.length
decreasing_by
  simp only [List.length_drop]
  have h := candidates_sound pp.2
  have h1 : 0 < pp.1.1.length := List.length_pos.mpr h.2.1
  have h2 : 0 < w.length := List.length_pos.mpr hw
  omega

theorem better_eq_some {a b : Option (List (List Char) × ℚ)}
    {y : List (List Char) × ℚ}
    (h : better a b = some y) : a = some y ∨ b = some y := by
  rcases a with _ | xa
  · exact Or.inr h
  · rcases b with _ | xb
    · exact Or.inl h
    · simp only [better] at h
      split at h
      · exact Or.inr h
      · exact Or.inl h

theorem foldl_better_eq_some :
    ∀ (l : List (Option (List (List Char) × ℚ))) (acc x),
      l.foldl better acc = some x → some x ∈ l ∨ acc = some x := by
  intro l
  induction l with
  | nil => intro acc x h; exact Or.inr h
  | cons o t ih =>
    intro acc x h
    rcases ih (better acc o) x h with h1 | h1
    · exact Or.inl (List.mem_cons_of_mem _ h1)
    · rcases better_eq_some h1 with h2 | h2
      · exact Or.inr h2
      · refine Or.inl ?_
        rw [h2]
        exact List.mem_cons_self _ _

theorem pickBest_eq_some {l : List (Option (List (List Char) × ℚ))} {x}
    (h : pickBest l = some x) : some x ∈ l := by
  rcases foldl_better_eq_some l none x h with h1 | h1
  · exact h1
  · exact absurd h1 (by simp)

theorem better_some_right (acc : Option (List (List Char) × ℚ)) (x) :
    ∃ y, better acc (some x) = some y := by
  rcases acc with _ | xa
  · exact ⟨x, rfl⟩
  · simp only [better]
    split
    · exact ⟨x, rfl⟩
    · exact ⟨xa, rfl⟩

theorem foldl_better_isSome :
    ∀ (l : List (Option (List (List Char) × ℚ))) (a),
      (l.foldl better (some a)).isSome := by
  intro l
  induction l with
  | nil => intro a; rfl
  | cons o t ih =>
    intro a
    show (t.foldl better (better (some a) o)).isSome
    rcases o with _ | xb
    · exact ih a
    · simp only [better]
      split
      · exact ih xb
      · exact ih a

theorem foldl_better_mem_isSome {x : List (List Char) × ℚ} :
    ∀ (l : List (Option (List (List Char) × ℚ))) (acc),
      some x ∈ l → (l.foldl better acc).isSome := by
  intro l
  induction l with
  | nil => intro acc h; simp at h
  | cons o t ih =>
    intro acc h
    rcases List.mem_cons.mp h with h1 | h1
    · show (t.foldl better (better acc o)).isSome
      rw [← h1]
      obtain ⟨y, hy⟩ := better_some_right acc x
      rw [hy]
      exact foldl_better_isSome t y
    · exact ih (better acc o) h1

theorem pickBest_isSome_of_mem {l : List (Option (List (List Char) × ℚ))} {x}
    (h : some x ∈ l) : (pickBest l).isSome :=
  foldl_better_mem_isSome l none h

theorem viterbi_nil (v : Vocab) : viterbi v [] = some ([], 1) := by
  rw [viterbi]
  simp

/-- Structural round-trip for the Viterbi decoder: the pieces of any
returned segmentation concatenate back to the input word. -/
theorem viterbi_flatten (v : Vocab) :
    ∀ (n : Nat) (w : List Char), w.length ≤ n →
      ∀ r, viterbi v w = some r → r.1.flatten = w := by
  intro n
  induction n with
  | zero =>
    intro w hw r hv
    have hwe : w = [] := List.length_eq_zero.mp (Nat.le_zero.mp hw)
    subst hwe
    rw [viterbi_nil] at hv
    rw [← Option.some_inj.mp hv]
    rfl
  | succ n ih =>
    intro w hw r hv
    by_cases hwe : w = []
    · subst hwe
      rw [viterbi_nil] at hv
      rw [← Option.some_inj.mp hv]
      rfl
    · rw [viterbi, dif_neg hwe] at hv
      have hmem := pickBest_eq_some hv
      rcases List.mem_map.mp hmem with ⟨⟨p, hpmem⟩, hpp, heq⟩
      rcases Option.map_eq_some'.mp heq with ⟨sr, hsr, hr⟩
      have hc := candidates_sound hpmem
      have hlen : (w.drop p.1.length).length ≤ n := by
        simp only [List.length_drop]
        have h1 := List.length_pos.mpr hc.2.1
        have h2 := List.length_pos.mpr hwe
        omega
      have hflat := ih _ hlen sr hsr
      rw [← hr]
      show (p.1 :: sr.1).flatten = w
      rw [List.flatten_cons, hflat]
      obtain ⟨t, ht⟩ := hc.2.2
      have hdrop : w.drop p.1.length = t := ht ▸ List.drop_left p.1 t
      rw [hdrop]
      exact ht

/-- Completeness of Viterbi under alphabet coverage: a word all of whose
characters have singleton pieces in the vocabulary always has a
segmentation. -/
theorem viterbi_isSome (v : Vocab) :
    ∀ (n : Nat) (w : List Char), w.length ≤ n →
      (∀ c ∈ w, ∃ q, ([c], q) ∈ v) → (viterbi v w).isSome := by
  intro n
  induction n with
  | zero =>
    intro w hw _
    have hwe : w = [] := List.length_eq_zero.mp (Nat.le_zero.mp hw)
    subst hwe
    rw [viterbi_nil]
    rfl
  | succ n ih =>
    intro w hw hcov
    rcases w with _ | ⟨c, rest⟩
    · rw [viterbi_nil]; rfl
    · obtain ⟨q, hq⟩ := hcov c (List.mem_cons_self c rest)
      have hcand : ([c], q) ∈ candidates v (c :: rest) :=
        candidates_complete hq (by simp) ⟨rest, rfl⟩
      have hrest : rest.length ≤ n := by
        simp only [List.length_cons] at hw
        omega
      have hrec : (viterbi v rest).isSome :=
        ih rest hrest (fun c' hc' => hcov c' (List.mem_cons_of_mem _ hc'))
      rcases Option.isSome_iff_exists.mp hrec with ⟨sr, hsr⟩
      have hmm : some (([c] : List Char) :: sr.1, q * sr.2) ∈
          (candidates v (c :: rest)).attach.map (fun pp =>
            (viterbi v ((c :: rest).drop pp.1.1.length)).map (fun sr =>
              (pp.1.1 :: sr.1, pp.1.2 * sr.2))) := by
        refine List.mem_map.mpr ⟨⟨([c], q), hcand⟩, List.mem_attach _ _, ?_⟩
        show (viterbi v ((c :: rest).drop 1)).map _ = _
        rw [List.drop_one, List.tail_cons, hsr]
        rfl
      rw [viterbi, dif_neg (by simp : ¬(c :: rest = []))]
      exact pickBest_isSome_of_mem hmm

/-!
Embedding of the Python binding layer
(`src/bindings/python/py_src/tokenizers/implementations/sentencepiece_unigram.py`).
-/

/-- Arguments the wrapper passes to `trainers.UnigramTrainer(...)`
(see `SentencePieceUnigramTokenizer.train`, lines 79–85). -/
structure UnigramTrainerArgs where
  vocab_size : Nat
  special_tokens : List (List Char)
  show_progress : Bool
  initial_alphabet : List (List Char)
  unk_token : Option (List Char)
  deriving DecidableEq, Repr

/-- The `files` argument of `SentencePieceUnigramTokenizer.train`: a single
path string or a list of path strings (`Union[str, List[str]]`). -/
inductive TrainFilesArg where
  | single (s : List Char)
  | many (ss : List (List Char))
  deriving DecidableEq, Repr

/-- What one call of `SentencePieceUnigramTokenizer.train` forwards to the
underlying `self._tokenizer.train(files, trainer=trainer)`. -/
structure TrainCall where
  files : List (List Char)
  trainer : UnigramTrainerArgs
  deriving DecidableEq, Repr

/-- `SentencePieceUnigramTokenizer.train` (lines 43–89): defaults `None`
arguments to `[]`, builds the `UnigramTrainer`, wraps a bare string `files`
into a one-element list, and calls the underlying tokenizer's `train`. -/
def spuTrain (files : TrainFilesArg) (vocab_size : Nat) (show_progress : Bool)
    (special_tokens : Option (List (List Char)))
    (initial_alphabet : Option (List (List Char)))
    (unk_token : Option (List Char)) : TrainCall :=
  let st := special_tokens.getD []
  let ia := initial_alphabet.getD []
  { files :=
      match files with
      | .single s => [s]
      | .many ss => ss
    trainer :=
      { vocab_size := vocab_size
        special_tokens := st
        show_progress := show_progress
        initial_alphabet := ia
        unk_token := unk_token } }

/-- `trainer_spec` fields of a parsed SentencePiece `ModelProto` that
`from_spm` reads (`m.trainer_spec.unk_id`, `m.trainer_spec.model_type`). -/
structure SpmTrainerSpec where
  unk_id : Nat
  model_type : Nat
  deriving DecidableEq, Repr

/-- `normalizer_spec` field of a parsed `ModelProto` that `from_spm` reads. -/
structure SpmNormalizerSpec where
  precompiled_charsmap : List Nat
  deriving DecidableEq, Repr

/-- A parsed SentencePiece model file, as read by `from_spm`. -/
structure SpmModelProto where
  pieces : List Piece
  trainer_spec : SpmTrainerSpec
  normalizer_spec : SpmNormalizerSpec
  deriving DecidableEq, Repr

/-- The tokenizer `from_spm` constructs on success: `Tokenizer(Unigram(vocab,
unk_id))` with a `Precompiled(precompiled_charsmap)` normalizer. -/
structure SpmTokenizer where
  vocab : List Piece
  unk_id : Nat
  charsmap : List Nat
  deriving DecidableEq, Repr

/-- The exception `from_spm` raises when the parsed file was trained with a
non-Unigram algorithm. -/
inductive SpmError where
  | notUnigram
  deriving DecidableEq, Repr

/-- `SentencePieceUnigramTokenizer.from_spm` (lines 195–240), modulo the
file parsing itself: reads `pieces`, `unk_id` and `model_type` from the
parsed proto, raises unless `model_type == 1` (the Unigram type), and
otherwise builds the tokenizer from the proto's pieces, unknown id and
precompiled charsmap. -/
def from_spm (m : SpmModelProto) : Except SpmError SpmTokenizer :=
  let vocab := m.pieces
  let unk_id := m.trainer_spec.unk_id
  let model_type := m.trainer_spec.model_type
  if model_type ≠ 1 then
    .error .notUnigram
  else
    .ok { vocab := vocab
          unk_id := unk_id
          charsmap := m.normalizer_spec.precompiled_charsmap }

/-!
The Unigram trainer core, modelled from the spec (§§2–4, 6–7): the trainer
itself is not among the provided sources — only its Python caller is — so
every definition below follows the specification text.
-/

/-- Modelled from the spec (§6 input contract): the training configuration.
`seedSize`, `shrinkPct` and `emIters` are the internal tunables ("max seed
size / shrink fraction / EM-iteration-count"). -/
structure TrainerConfig where
  vocabSize : Nat
  specialTokens : List (List Char)
  initialAlphabet : List (List Char)
  unkToken : Option (List Char)
  showProgress : Bool
  seedSize : Nat
  shrinkPct : Nat
  emIters : Nat
  deriving DecidableEq, Repr

/-- Modelled from the spec (§4.1, §7): the trainer's error conditions. -/
inductive TrainError where
  | EmptyCorpus
  | VocabTooSmall
  deriving DecidableEq, Repr

/-- Modelled from the spec (§3, §6): the trainer output — the final
vocabulary plus a designated unknown-piece id. -/
structure UnigramModel where
  pieces : List Piece
  unkId : Option Nat
  deriving DecidableEq, Repr

/-- Modelled from the spec (§3, §4.1): the mandatory alphabet — every
distinct character observed in the corpus, plus the first character of
every caller-supplied initial-alphabet string ("only first character of
each is used if longer"). -/
def mandatoryAlphabet (table : FreqTable) (cfg : TrainerConfig) : List Char :=
  ((table.map Prod.fst).flatten ++ cfg.initialAlphabet.filterMap List.head?).dedup

/-- Number of occurrences of `s` as a substring of `w` (by start offset). -/
def occurrences (s w : List Char) : Nat :=
  (List.range w.length).countP (fun i => s.isPrefixOf (w.drop i))

/-- Modelled from the spec (§4.1): a substring's occurrence weight over the
whole table — each occurrence weighted by the word's frequency. -/
def weightOf (table : FreqTable) (s : List Char) : Nat :=
  (table.map (fun e => e.2 * occurrences s e.1)).sum

/-- All substrings of `w` of length 2 up to `maxLen` (the multi-character
seed candidates; single characters are seeded separately as the alphabet). -/
def midSubstrings (maxLen : Nat) (w : List Char) : List (List Char) :=
  ((List.range w.length).map (fun i =>
    (List.range (min maxLen (w.length - i) - 1)).map
      (fun l => (w.drop i).take (l + 2)))).flatten

/-- Modelled from the spec (§4.1): the frequency-adjusted retention
heuristic, "frequency × length". -/
def seedKey (table : FreqTable) (s : List Char) : Nat := weightOf table s * s.length

/-- Modelled from the spec (§4.1 SeedGenerator): the top-K multi-character
candidate substrings by the frequency × length heuristic, K = seed size. -/
def seedCandidates (table : FreqTable) (cfg : TrainerConfig) : List (List Char) :=
  let cands := ((table.map (fun e => midSubstrings 16 e.1)).flatten).dedup
  (List.insertionSort (fun a b => seedKey table b ≤ seedKey table a) cands).take cfg.seedSize

/-- Modelled from the spec (§4.1): the initial Vocabulary — special tokens,
the full mandatory alphabet as single-character pieces (included
unconditionally, regardless of frequency rank), and the retained candidate
substrings, scored by normalized weighted frequency. -/
def seedVocab (table : FreqTable) (cfg : TrainerConfig) (alpha : List Char) : Vocab :=
  let surfs := (cfg.specialTokens ++ alpha.map (fun c => [c]) ++ seedCandidates table cfg).dedup
  let total := (surfs.map (weightOf table)).sum
  surfs.map (fun s => (s, if total = 0 then 0 else (weightOf table s : ℚ) / total))

/-- The weight (path probability) of one segmentation. -/
def segWeight (seg : List Piece) : ℚ := (seg.map Prod.snd).prod

/-- An expected-count accumulator, keyed by piece surface. -/
abbrev CountF := List Char → ℚ

def zeroCount : CountF := fun _ => 0

def addCount (f g : CountF) : CountF := fun s => f s + g s

/-- Modelled from the spec (§4.3 forward–backward, §4.4 E-step): the
expected number of uses of surface `s` in word `e.1`, weighted by the
word's corpus frequency `e.2` — the sum over all lattice paths of
(path weight × uses of `s` on the path), normalized by the total path
weight. -/
def wordCounts (v : Vocab) (e : List Char × Nat) : CountF := fun s =>
  let segs := segmentations v e.1
  let z := (segs.map segWeight).sum
  if z = 0 then 0
  else (e.2 : ℚ) *
    (segs.map (fun seg =>
      segWeight seg * ((seg.filter (fun p => p.1 == s)).length : ℚ))).sum / z

/-- Modelled from the spec (§4.4 E-step): accumulate expected counts over
the whole frequency table. -/
def eStep (v : Vocab) (table : FreqTable) : CountF :=
  table.foldl (fun acc e => addCount acc (wordCounts v e)) zeroCount

/-- Modelled from the spec (§4.4 M-step): re-estimate every piece's score
as its expected count over the total expected count. -/
def mStep (v : Vocab) (cnt : CountF) : Vocab :=
  let total := (v.map (fun p => cnt p.1)).sum
  v.map (fun p => (p.1, if total = 0 then 0 else cnt p.1 / total))

/-- One EM iteration. -/
def emOnce (table : FreqTable) (v : Vocab) : Vocab := mStep v (eStep v table)

/-- Modelled from the spec (§4.4): the EMTrainer runs its fixed iteration
budget (`emIters`) between pruning rounds. -/
def emPass (cfg : TrainerConfig) (table : FreqTable) (v : Vocab) : Vocab :=
  (emOnce table)^[cfg.emIters] v

/-- Modelled from the spec (§3, §4.5): pieces exempt from pruning — special
tokens and the single-character pieces of the mandatory alphabet. -/
def isMandatory (specials : List (List Char)) (alpha : List Char) (s : List Char) : Bool :=
  specials.contains s ||
    (match s with
     | [c] => alpha.contains c
     | _ => false)

/-- The Viterbi-best segmentation weight of `w`, or 0 when `w` has no
segmentation. -/
def bestWeight (v : Vocab) (w : List Char) : ℚ :=
  match viterbi v w with
  | some r => r.2
  | none => 0

/-- Modelled from the spec (§4.5): a removable piece's contribution to the
corpus likelihood — the loss incurred over the table if the piece were
deleted and each word re-decoded without it. -/
def contributionOf (table : FreqTable) (v : Vocab) (s : List Char) : ℚ :=
  (table.map (fun e =>
    (e.2 : ℚ) * (bestWeight v e.1 - bestWeight (v.filter (fun p => !(p.1 == s))) e.1))).sum

/-- The pieces the Pruner may remove: everything except special tokens and
alphabet singletons (§4.5). -/
def removablePieces (cfg : TrainerConfig) (alpha : List Char) (v : Vocab) : Vocab :=
  v.filter (fun p => !isMandatory cfg.specialTokens alpha p.1)

/-- How many pieces this round removes: the round's shrink fraction of the
removable pieces (at least one), but never more than needed to reach the
final vocabulary size (§4.5). -/
def pruneCount (cfg : TrainerConfig) (alpha : List Char) (v : Vocab) : Nat :=
  min (max 1 ((removablePieces cfg alpha v).length * cfg.shrinkPct / 100))
    (v.length - cfg.vocabSize)

/-- The surfaces removed this round: the removable pieces of least
contribution (ascending sort, first `pruneCount` taken). -/
def doomedSurfaces (cfg : TrainerConfig) (alpha : List Char) (table : FreqTable) (v : Vocab) :
    List (List Char) :=
  ((List.insertionSort
    (fun a b => contributionOf table v a.1 ≤ contributionOf table v b.1)
    (removablePieces cfg alpha v)).take (pruneCount cfg alpha v)).map Prod.fst

/-- Modelled from the spec (§4.5 Pruner): sort removable pieces by
ascending contribution and remove enough to hit the round's shrink
fraction or the final vocabulary size, whichever binds first; special
tokens and alphabet singletons are exempt. -/
def pruneStep (cfg : TrainerConfig) (alpha : List Char) (table : FreqTable) (v : Vocab) : Vocab :=
  v.filter (fun p => !((doomedSurfaces cfg alpha table v).contains p.1))

/-- One training round (§4.6): the fixed EM budget, then one prune pass. -/
def trainRound (cfg : TrainerConfig) (alpha : List Char) (table : FreqTable) (v : Vocab) : Vocab :=
  pruneStep cfg alpha table (emPass cfg table v)

/-- Modelled from the spec (§4.6 TrainerOrchestrator): Refining ⇄ Pruning
rounds until the vocabulary size reaches the target (fuel-bounded; the fuel
used by `trainCore` provably suffices since each round shrinks the
vocabulary). -/
def trainLoop (cfg : TrainerConfig) (alpha : List Char) (table : FreqTable) :
    Nat → Vocab → Vocab
  | 0, v => v
  | fuel + 1, v =>
      if v.length ≤ cfg.vocabSize then v
      else trainLoop cfg alpha table fuel (trainRound cfg alpha table v)

/-- The successive vocabularies of the round loop: the seed vocabulary,
then the vocabulary after each pruning step. -/
def trainTrace (cfg : TrainerConfig) (alpha : List Char) (table : FreqTable) :
    Nat → Vocab → List Vocab
  | 0, v => [v]
  | fuel + 1, v =>
      if v.length ≤ cfg.vocabSize then [v]
      else v :: trainTrace cfg alpha table fuel (trainRound cfg alpha table v)

/-- Descending-score order on pieces (the emission order of trained
pieces). -/
def descScore (a b : Piece) : Prop := b.2 ≤ a.2

instance : DecidableRel descScore := fun a b => inferInstanceAs (Decidable (b.2 ≤ a.2))

instance : IsTotal Piece descScore := ⟨fun a b => le_total b.2 a.2⟩

instance : IsTrans Piece descScore := ⟨fun _ _ _ h1 h2 => le_trans h2 h1⟩

/-- Index of the first piece with surface `t` in a piece list. -/
def surfaceIdx (t : List Char) : List Piece → Option Nat
  | [] => none
  | p :: ps => if p.1 = t then some 0 else (surfaceIdx t ps).map (· + 1)

/-- Modelled from the spec (§6 output contract): emit special tokens first,
in user order with the conventional 0 score, then the trained pieces sorted
by descending score, plus the designated unknown-piece id. -/
def finalizeModel (cfg : TrainerConfig) (v : Vocab) : UnigramModel :=
  let specialsOut := cfg.specialTokens.map (fun s => (s, (0 : ℚ)))
  let trained := v.filter (fun p => !(cfg.specialTokens.contains p.1))
  let sortedT := List.insertionSort descScore trained
  let pieces := specialsOut ++ sortedT
  { pieces := pieces
    unkId := cfg.unkToken.bind (fun t => surfaceIdx t pieces) }

/-- The vocabulary at the end of the round loop, after the final EM pass
(§4.6 Finalizing), before emission. -/
def trainedVocab (table : FreqTable) (cfg : TrainerConfig) (alpha : List Char) : Vocab :=
  emPass cfg table (trainLoop cfg alpha table ((seedVocab table cfg alpha).length + 1)
    (seedVocab table cfg alpha))

/-- Modelled from the spec (§4.6): Seeding → Refining ⇄ Pruning →
Finalizing (one last EM pass) → emit. -/
def trainCore (table : FreqTable) (cfg : TrainerConfig) : UnigramModel :=
  finalizeModel cfg (trainedVocab table cfg (mandatoryAlphabet table cfg))

/-- The vocabularies produced during a training run of `trainCore`:
the seed, then the result of every pruning step. -/
def trainTraceOf (table : FreqTable) (cfg : TrainerConfig) : List Vocab :=
  let alpha := mandatoryAlphabet table cfg
  let v0 := seedVocab table cfg alpha
  trainTrace cfg alpha table (v0.length + 1) v0

/-- Modelled from the spec (§4.1, §7): full training with the immediate
error checks — `EmptyCorpus` when the frequency table is empty,
`VocabTooSmall` when the requested final size is smaller than the
mandatory alphabet size plus the number of special tokens (both reported
before any EM or prune round executes, in the order the spec lists them
in §4.1). -/
def train (table : FreqTable) (cfg : TrainerConfig) : Except TrainError UnigramModel :=
  if table.isEmpty then .error .EmptyCorpus
  else if cfg.vocabSize < (mandatoryAlphabet table cfg).length + cfg.specialTokens.length then
    .error .VocabTooSmall
  else .ok (trainCore table cfg)

/-! Vocabulary invariants through the training pipeline. -/

theorem contains_true_iff_mem {α : Type} [BEq α] [LawfulBEq α] {l : List α} {s : α} :
    l.contains s = true ↔ s ∈ l := by
  constructor
  · intro h
    rcases List.contains_iff_exists_mem_beq.mp h with ⟨b, hb, hbeq⟩
    rw [show s = b from by simpa using hbeq]
    exact hb
  · intro h
    exact List.contains_iff_exists_mem_beq.mpr ⟨s, h, by simp⟩

theorem surfaces_mStep (v : Vocab) (cnt : CountF) : surfaces (mStep v cnt) = surfaces v := by
  simp [surfaces, mStep, List.map_map, Function.comp]

theorem surfaces_emOnce (table : FreqTable) (v : Vocab) :
    surfaces (emOnce table v) = surfaces v :=
  surfaces_mStep v (eStep v table)

theorem surfaces_emIter (table : FreqTable) :
    ∀ (n : Nat) (v : Vocab), surfaces ((emOnce table)^[n] v) = surfaces v := by
  intro n
  induction n with
  | zero => intro v; rfl
  | succ n ih =>
    intro v
    rw [Function.iterate_succ_apply, ih, surfaces_emOnce]

theorem surfaces_emPass (cfg : TrainerConfig) (table : FreqTable) (v : Vocab) :
    surfaces (emPass cfg table v) = surfaces v :=
  surfaces_emIter table cfg.emIters v

theorem length_emPass (cfg : TrainerConfig) (table : FreqTable) (v : Vocab) :
    (emPass cfg table v).length = v.length := by
  have h := congrArg List.length (surfaces_emPass cfg table v)
  simpa [surfaces] using h

theorem doomed_not_mandatory {cfg : TrainerConfig} {alpha : List Char}
    {table : FreqTable} {v : Vocab} {s : List Char}
    (h : s ∈ doomedSurfaces cfg alpha table v) :
    isMandatory cfg.specialTokens alpha s = false := by
  rcases List.mem_map.mp h with ⟨p, hp, rfl⟩
  have hp1 : p ∈ removablePieces cfg alpha v :=
    (List.perm_insertionSort _ _).mem_iff.mp (List.mem_of_mem_take hp)
  have hp2 := (List.mem_filter.mp hp1).2
  simpa using hp2

theorem doomed_sub_surfaces {cfg : TrainerConfig} {alpha : List Char}
    {table : FreqTable} {v : Vocab} :
    doomedSurfaces cfg alpha table v ⊆ surfaces v := by
  intro s h
  rcases List.mem_map.mp h with ⟨p, hp, rfl⟩
  have hp1 : p ∈ removablePieces cfg alpha v :=
    (List.perm_insertionSort _ _).mem_iff.mp (List.mem_of_mem_take hp)
  exact List.mem_map.mpr ⟨p, (List.mem_filter.mp hp1).1, rfl⟩

theorem pruneStep_keeps {cfg : TrainerConfig} {alpha : List Char}
    {table : FreqTable} {v : Vocab} {s : List Char}
    (hs : s ∈ surfaces v) (hm : isMandatory cfg.specialTokens alpha s = true) :
    s ∈ surfaces (pruneStep cfg alpha table v) := by
  rcases List.mem_map.mp hs with ⟨p, hp, rfl⟩
  refine List.mem_map.mpr ⟨p, List.mem_filter.mpr ⟨hp, ?_⟩, rfl⟩
  cases hcon : (doomedSurfaces cfg alpha table v).contains p.1 with
  | false => rfl
  | true =>
    have hmem : p.1 ∈ doomedSurfaces cfg alpha table v := contains_true_iff_mem.mp hcon
    have hfalse := doomed_not_mandatory hmem
    rw [hfalse] at hm
    exact Bool.noConfusion hm

theorem surfaces_filter_sublist (v : Vocab) (f : Piece → Bool) :
    List.Sublist (surfaces (v.filter f)) (surfaces v) :=
  List.Sublist.map Prod.fst (List.filter_sublist v)

theorem surfaces_pruneStep_sublist (cfg : TrainerConfig) (alpha : List Char)
    (table : FreqTable) (v : Vocab) :
    List.Sublist (surfaces (pruneStep cfg alpha table v)) (surfaces v) :=
  surfaces_filter_sublist v _

theorem map_fst_map_pair {α β : Type} (l : List α) (f : α → β) :
    List.map Prod.fst (l.map (fun s => (s, f s))) = l := by
  induction l with
  | nil => rfl
  | cons a t ih => simp only [List.map_cons, ih]

theorem surfaces_seedVocab (table : FreqTable) (cfg : TrainerConfig) (alpha : List Char) :
    surfaces (seedVocab table cfg alpha) =
      (cfg.specialTokens ++ alpha.map (fun c => [c]) ++ seedCandidates table cfg).dedup := by
  unfold seedVocab surfaces
  exact map_fst_map_pair _ _

theorem seed_nodup (table : FreqTable) (cfg : TrainerConfig) (alpha : List Char) :
    (surfaces (seedVocab table cfg alpha)).Nodup := by
  rw [surfaces_seedVocab]
  exact List.nodup_dedup _

theorem seed_special_mem {table : FreqTable} {cfg : TrainerConfig} {alpha : List Char}
    {s : List Char} (hs : s ∈ cfg.specialTokens) :
    s ∈ surfaces (seedVocab table cfg alpha) := by
  rw [surfaces_seedVocab]
  exact List.mem_dedup.mpr (List.mem_append.mpr (Or.inl (List.mem_append.mpr (Or.inl hs))))

theorem seed_single_mem {table : FreqTable} {cfg : TrainerConfig} {alpha : List Char}
    {c : Char} (hc : c ∈ alpha) :
    [c] ∈ surfaces (seedVocab table cfg alpha) := by
  rw [surfaces_seedVocab]
  exact List.mem_dedup.mpr (List.mem_append.mpr (Or.inl
    (List.mem_append.mpr (Or.inr (List.mem_map.mpr ⟨c, hc, rfl⟩)))))

/-- The structural vocabulary invariant: no duplicate surfaces, and every
special token and alphabet singleton is present. -/
def VocabOK (cfg : TrainerConfig) (alpha : List Char) (v : Vocab) : Prop :=
  (surfaces v).Nodup ∧ (∀ s ∈ cfg.specialTokens, s ∈ surfaces v) ∧
    (∀ c ∈ alpha, [c] ∈ surfaces v)

theorem vocabOK_seed (table : FreqTable) (cfg : TrainerConfig) (alpha : List Char) :
    VocabOK cfg alpha (seedVocab table cfg alpha) :=
  ⟨seed_nodup table cfg alpha, fun _ hs => seed_special_mem hs, fun _ hc => seed_single_mem hc⟩

theorem vocabOK_emPass {cfg : TrainerConfig} {alpha : List Char} {table : FreqTable}
    {v : Vocab} (h : VocabOK cfg alpha v) : VocabOK cfg alpha (emPass cfg table v) := by
  unfold VocabOK at h ⊢
  rw [surfaces_emPass]
  exact h

theorem vocabOK_pruneStep {cfg : TrainerConfig} {alpha : List Char} {table : FreqTable}
    {v : Vocab} (h : VocabOK cfg alpha v) : VocabOK cfg alpha (pruneStep cfg alpha table v) := by
  refine ⟨(surfaces_pruneStep_sublist cfg alpha table v).nodup h.1, ?_, ?_⟩
  · intro s hs
    refine pruneStep_keeps (h.2.1 s hs) ?_
    unfold isMandatory
    rw [Bool.or_eq_true]
    exact Or.inl (contains_true_iff_mem.mpr hs)
  · intro c hc
    refine pruneStep_keeps (h.2.2 c hc) ?_
    have hred : isMandatory cfg.specialTokens alpha [c] =
        (cfg.specialTokens.contains [c] || alpha.contains c) := rfl
    rw [hred, Bool.or_eq_true]
    exact Or.inr (contains_true_iff_mem.mpr hc)

theorem vocabOK_trainRound {cfg : TrainerConfig} {alpha : List Char} {table : FreqTable}
    {v : Vocab} (h : VocabOK cfg alpha v) : VocabOK cfg alpha (trainRound cfg alpha table v) :=
  vocabOK_pruneStep (vocabOK_emPass h)

theorem vocabOK_trainLoop {cfg : TrainerConfig} {alpha : List Char} {table : FreqTable} :
    ∀ (fuel : Nat) (v : Vocab), VocabOK cfg alpha v →
      VocabOK cfg alpha (trainLoop cfg alpha table fuel v) := by
  intro fuel
  induction fuel with
  | zero => intro v h; exact h
  | succ n ih =>
    intro v h
    simp only [trainLoop]
    split
    · exact h
    · exact ih _ (vocabOK_trainRound h)

theorem vocabOK_trainTrace {cfg : TrainerConfig} {alpha : List Char} {table : FreqTable} :
    ∀ (fuel : Nat) (v : Vocab), VocabOK cfg alpha v →
      ∀ u ∈ trainTrace cfg alpha table fuel v, VocabOK cfg alpha u := by
  intro fuel
  induction fuel with
  | zero =>
    intro v h u hu
    rw [show u = v from by simpa [trainTrace] using hu]
    exact h
  | succ n ih =>
    intro v h u hu
    simp only [trainTrace] at hu
    split at hu
    · rw [show u = v from by simpa using hu]
      exact h
    · rcases List.mem_cons.mp hu with h1 | h1
      · rw [h1]; exact h
      · exact ih _ (vocabOK_trainRound h) u h1

theorem mandatory_surfaces_sub {cfg : TrainerConfig} {alpha : List Char} {v : Vocab} :
    surfaces (v.filter (fun p => isMandatory cfg.specialTokens alpha p.1)) ⊆
      cfg.specialTokens ++ alpha.map (fun c => [c]) := by
  intro s hs
  rcases List.mem_map.mp hs with ⟨p, hp, rfl⟩
  have hm := (List.mem_filter.mp hp).2
  unfold isMandatory at hm
  rw [Bool.or_eq_true] at hm
  rcases hm with hm | hm
  · exact List.mem_append.mpr (Or.inl (contains_true_iff_mem.mp hm))
  · refine List.mem_append.mpr (Or.inr ?_)
    rcases p1 : p.1 with _ | ⟨c, rest⟩
    · rw [p1] at hm
      exact Bool.noConfusion hm
    · rcases rest with _ | ⟨c2, r2⟩
      · rw [p1] at hm
        exact List.mem_map.mpr ⟨c, contains_true_iff_mem.mp hm, rfl⟩
      · rw [p1] at hm
        exact Bool.noConfusion hm

theorem mandatory_length_le {cfg : TrainerConfig} {alpha : List Char} {v : Vocab}
    (hnd : (surfaces v).Nodup) :
    (v.filter (fun p => isMandatory cfg.specialTokens alpha p.1)).length ≤
      cfg.specialTokens.length + alpha.length := by
  have hnd2 : (surfaces (v.filter (fun p => isMandatory cfg.specialTokens alpha p.1))).Nodup :=
    (surfaces_filter_sublist v _).nodup hnd
  have hle := (hnd2.subperm mandatory_surfaces_sub).length_le
  simpa [surfaces] using hle

theorem removable_length_ge {cfg : TrainerConfig} {alpha : List Char} {v : Vocab}
    (hnd : (surfaces v).Nodup)
    (hcard : cfg.specialTokens.length + alpha.length ≤ cfg.vocabSize) :
    v.length - cfg.vocabSize ≤ (removablePieces cfg alpha v).length := by
  have hpart : v.length =
      (v.filter (fun p => isMandatory cfg.specialTokens alpha p.1)).length +
        (removablePieces cfg alpha v).length :=
    List.length_eq_length_filter_add _
  have hm := @mandatory_length_le cfg alpha v hnd
  omega

theorem filter_length_lt_of_exists {v : Vocab} {f : Piece → Bool}
    (hex : ∃ p ∈ v, f p = false) : (v.filter f).length < v.length := by
  rcases hex with ⟨p, hp, hf⟩
  rcases Nat.lt_or_ge (v.filter f).length v.length with h | h
  · exact h
  · exfalso
    have heq : v.filter f = v :=
      (List.filter_sublist v).eq_of_length
        (Nat.le_antisymm (List.filter_sublist v).length_le h)
    have hall := List.filter_eq_self.mp heq
    rw [hall p hp] at hf
    exact Bool.noConfusion hf

theorem doomed_length (cfg : TrainerConfig) (alpha : List Char) (table : FreqTable) (v : Vocab) :
    (doomedSurfaces cfg alpha table v).length =
      min (pruneCount cfg alpha v) (removablePieces cfg alpha v).length := by
  unfold doomedSurfaces
  rw [List.length_map, List.length_take, (List.perm_insertionSort _ _).length_eq]

theorem pruneStep_length_lt {cfg : TrainerConfig} {alpha : List Char} {table : FreqTable}
    {v : Vocab} (hnd : (surfaces v).Nodup)
    (hcard : cfg.specialTokens.length + alpha.length ≤ cfg.vocabSize)
    (hbig : cfg.vocabSize < v.length) :
    (pruneStep cfg alpha table v).length < v.length := by
  have hrem := removable_length_ge hnd hcard
  have hk : 1 ≤ pruneCount cfg alpha v := by
    unfold pruneCount
    have h1 := Nat.le_max_left 1 ((removablePieces cfg alpha v).length * cfg.shrinkPct / 100)
    omega
  have hdl : 1 ≤ (doomedSurfaces cfg alpha table v).length := by
    rw [doomed_length]
    omega
  obtain ⟨s, hsd⟩ :=
    List.exists_mem_of_ne_nil (doomedSurfaces cfg alpha table v)
      (List.length_pos.mp (by omega))
  have hsv : s ∈ surfaces v := doomed_sub_surfaces hsd
  rcases List.mem_map.mp hsv with ⟨p, hp, rfl⟩
  refine filter_length_lt_of_exists ⟨p, hp, ?_⟩
  simp only [Bool.not_eq_false']
  exact contains_true_iff_mem.mpr hsd

theorem pruneStep_length_ge {cfg : TrainerConfig} {alpha : List Char} {table : FreqTable}
    {v : Vocab} (hnd : (surfaces v).Nodup) (hbig : cfg.vocabSize ≤ v.length) :
    cfg.vocabSize ≤ (pruneStep cfg alpha table v).length := by
  have hpart : v.length =
      (v.filter (fun p => (doomedSurfaces cfg alpha table v).contains p.1)).length +
        (pruneStep cfg alpha table v).length :=
    List.length_eq_length_filter_add _
  have hnd2 : (surfaces (v.filter
      (fun p => (doomedSurfaces cfg alpha table v).contains p.1))).Nodup :=
    (surfaces_filter_sublist v _).nodup hnd
  have hsub : surfaces (v.filter
      (fun p => (doomedSurfaces cfg alpha table v).contains p.1)) ⊆
      doomedSurfaces cfg alpha table v := by
    intro s hs
    rcases List.mem_map.mp hs with ⟨p, hp, rfl⟩
    exact contains_true_iff_mem.mp (List.mem_filter.mp hp).2
  have hdrop := (hnd2.subperm hsub).length_le
  have hdrop2 : (v.filter
      (fun p => (doomedSurfaces cfg alpha table v).contains p.1)).length ≤
      (doomedSurfaces cfg alpha table v).length := by
    simpa [surfaces] using hdrop
  have hdlen : (doomedSurfaces cfg alpha table v).length ≤ v.length - cfg.vocabSize := by
    rw [doomed_length]
    unfold pruneCount
    omega
  omega

theorem trainRound_length_lt {cfg : TrainerConfig} {alpha : List Char} {table : FreqTable}
    {v : Vocab} (hok : VocabOK cfg alpha v)
    (hcard : cfg.specialTokens.length + alpha.length ≤ cfg.vocabSize)
    (hbig : cfg.vocabSize < v.length) :
    (trainRound cfg alpha table v).length < v.length ∧
      cfg.vocabSize ≤ (trainRound cfg alpha table v).length := by
  have hok2 := @vocabOK_emPass cfg alpha table v hok
  have hl := length_emPass cfg table v
  constructor
  · have h := @pruneStep_length_lt cfg alpha table (emPass cfg table v) hok2.1 hcard (by omega)
    unfold trainRound
    omega
  · have h := @pruneStep_length_ge cfg alpha table (emPass cfg table v) hok2.1 (by omega)
    unfold trainRound
    omega

theorem trainTrace_cons (cfg : TrainerConfig) (alpha : List Char) (table : FreqTable) :
    ∀ (fuel : Nat) (v : Vocab), ∃ t, trainTrace cfg alpha table fuel v = v :: t := by
  intro fuel v
  cases fuel with
  | zero => exact ⟨[], rfl⟩
  | succ n =>
    by_cases h : v.length ≤ cfg.vocabSize
    · exact ⟨[], by simp [trainTrace, h]⟩
    · exact ⟨trainTrace cfg alpha table n (trainRound cfg alpha table v),
        by simp [trainTrace, h]⟩

/-- One pruning transition of the round loop, as observed on the trace:
the vocabulary shrinks strictly, never below the target, and retains every
special token and alphabet singleton. -/
def ShrinkStep (cfg : TrainerConfig) (alpha : List Char) (a b : Vocab) : Prop :=
  b.length < a.length ∧ cfg.vocabSize ≤ b.length ∧
    (∀ s ∈ cfg.specialTokens, s ∈ surfaces b) ∧ (∀ c ∈ alpha, [c] ∈ surfaces b)

theorem trainTrace_chain {cfg : TrainerConfig} {alpha : List Char} {table : FreqTable}
    (hcard : cfg.specialTokens.length + alpha.length ≤ cfg.vocabSize) :
    ∀ (fuel : Nat) (v : Vocab), VocabOK cfg alpha v →
      List.Chain' (ShrinkStep cfg alpha) (trainTrace cfg alpha table fuel v) := by
  intro fuel
  induction fuel with
  | zero => intro v h; simp [trainTrace]
  | succ n ih =>
    intro v h
    simp only [trainTrace]
    split
    · simp
    · rename_i hbig
      push_neg at hbig
      obtain ⟨t, ht⟩ := trainTrace_cons cfg alpha table n (trainRound cfg alpha table v)
      rw [ht]
      have hlen := @trainRound_length_lt cfg alpha table v h hcard hbig
      have hok2 := @vocabOK_trainRound cfg alpha table v h
      refine List.chain'_cons.mpr ⟨⟨hlen.1, hlen.2, hok2.2.1, hok2.2.2⟩, ?_⟩
      rw [← ht]
      exact ih _ hok2

theorem trainLoop_mem_trace {cfg : TrainerConfig} {alpha : List Char} {table : FreqTable} :
    ∀ (fuel : Nat) (v : Vocab),
      trainLoop cfg alpha table fuel v ∈ trainTrace cfg alpha table fuel v := by
  intro fuel
  induction fuel with
  | zero => intro v; simp [trainLoop, trainTrace]
  | succ n ih =>
    intro v
    simp only [trainLoop, trainTrace]
    split
    · simp
    · exact List.mem_cons_of_mem _ (ih _)

theorem finalize_surface_mem {cfg : TrainerConfig} {v : Vocab} {s : List Char}
    (hs : s ∈ surfaces v) :
    ∃ q, (s, q) ∈ (finalizeModel cfg v).pieces := by
  rcases List.mem_map.mp hs with ⟨p, hp, rfl⟩
  show ∃ q, (p.1, q) ∈ cfg.specialTokens.map (fun s => (s, (0 : ℚ))) ++
    List.insertionSort (fun a b : Piece => b.2 ≤ a.2)
      (v.filter (fun p => !(cfg.specialTokens.contains p.1)))
  cases hsp : cfg.specialTokens.contains p.1 with
  | true =>
    exact ⟨0, List.mem_append.mpr (Or.inl
      (List.mem_map.mpr ⟨p.1, contains_true_iff_mem.mp hsp, rfl⟩))⟩
  | false =>
    refine ⟨p.2, List.mem_append.mpr (Or.inr ?_)⟩
    have hmem : p ∈ v.filter (fun p => !(cfg.specialTokens.contains p.1)) :=
      List.mem_filter.mpr ⟨hp, by rw [hsp]; rfl⟩
    exact (List.perm_insertionSort _ _).mem_iff.mpr hmem

theorem mandatory_char_of_word {table : FreqTable} {cfg : TrainerConfig}
    {w : List Char} {n : Nat} (hw : (w, n) ∈ table) {c : Char} (hc : c ∈ w) :
    c ∈ mandatoryAlphabet table cfg := by
  unfold mandatoryAlphabet
  refine List.mem_dedup.mpr (List.mem_append.mpr (Or.inl ?_))
  exact List.mem_flatten.mpr ⟨w, List.mem_map.mpr ⟨(w, n), hw, rfl⟩, hc⟩

theorem trainCore_single_mem {table : FreqTable} {cfg : TrainerConfig} {c : Char}
    (hc : c ∈ mandatoryAlphabet table cfg) :
    ∃ q, ([c], q) ∈ (trainCore table cfg).pieces := by
  have hok := @vocabOK_trainLoop cfg (mandatoryAlphabet table cfg) table
    ((seedVocab table cfg (mandatoryAlphabet table cfg)).length + 1)
    (seedVocab table cfg (mandatoryAlphabet table cfg))
    (vocabOK_seed table cfg (mandatoryAlphabet table cfg))
  have hfin : [c] ∈ surfaces (emPass cfg table
      (trainLoop cfg (mandatoryAlphabet table cfg) table
        ((seedVocab table cfg (mandatoryAlphabet table cfg)).length + 1)
        (seedVocab table cfg (mandatoryAlphabet table cfg)))) := by
    rw [surfaces_emPass]
    exact hok.2.2 c hc
  obtain ⟨q, hq⟩ := finalize_surface_mem hfin
  exact ⟨q, hq⟩

/-! Claim theorems and their concrete witnesses. -/

/-- Witness inputs: a small frequency table and configuration. -/
def wTable : FreqTable := [(['a', 'b'], 1)]

def wCfg : TrainerConfig :=
  { vocabSize := 2, specialTokens := [], initialAlphabet := [], unkToken := none,
    showProgress := false, seedSize := 1, shrinkPct := 20, emIters := 2 }

def wTable2 : FreqTable := [(['a'], 1)]

def wCfg2 : TrainerConfig :=
  { vocabSize := 1, specialTokens := [], initialAlphabet := [], unkToken := none,
    showProgress := false, seedSize := 0, shrinkPct := 20, emIters := 2 }

/-- C1: for every word in the training FrequencyTable, the Viterbi-best
segmentation over the trained model exists (no gaps, no overlaps — it is a
segmentation) and concatenating its pieces reconstructs the original word
exactly. -/
theorem C1_viterbi_roundtrip (table : FreqTable) (cfg : TrainerConfig)
    (w : List Char) (n : Nat) (hw : (w, n) ∈ table) :
    (viterbi (trainCore table cfg).pieces w).map (fun r => r.1.flatten) = some w := by
  have hcov : ∀ c ∈ w, ∃ q, ([c], q) ∈ (trainCore table cfg).pieces :=
    fun c hc => trainCore_single_mem (mandatory_char_of_word hw hc)
  have hsome := viterbi_isSome (trainCore table cfg).pieces w.length w le_rfl hcov
  rcases Option.isSome_iff_exists.mp hsome with ⟨r, hr⟩
  rw [hr]
  exact congrArg some (viterbi_flatten (trainCore table cfg).pieces w.length w le_rfl r hr)

/-- Witness for C1 at a concrete table and configuration. -/
theorem C1_witness :
    (viterbi (trainCore wTable wCfg).pieces ['a', 'b']).map (fun r => r.1.flatten) =
      some ['a', 'b'] :=
  C1_viterbi_roundtrip wTable wCfg ['a', 'b'] 1 (by decide)

/-- C2: every vocabulary produced during training (the seed and the result
of every pruning round) contains all special tokens and a singleton piece
for every mandatory-alphabet character; consequently every training word
remains segmentable at every round. -/
theorem C2_alphabet_invariant (table : FreqTable) (cfg : TrainerConfig)
    (v : Vocab) (hv : v ∈ trainTraceOf table cfg) :
    (∀ s ∈ cfg.specialTokens, s ∈ surfaces v) ∧
      (∀ c ∈ mandatoryAlphabet table cfg, [c] ∈ surfaces v) ∧
      (∀ w n, (w, n) ∈ table → (viterbi v w).isSome) := by
  have hok := @vocabOK_trainTrace cfg (mandatoryAlphabet table cfg) table
    ((seedVocab table cfg (mandatoryAlphabet table cfg)).length + 1)
    (seedVocab table cfg (mandatoryAlphabet table cfg))
    (vocabOK_seed table cfg (mandatoryAlphabet table cfg)) v hv
  refine ⟨hok.2.1, hok.2.2, ?_⟩
  intro w n hw
  apply viterbi_isSome v w.length w le_rfl
  intro c hc
  have hc2 : [c] ∈ surfaces v := hok.2.2 c (mandatory_char_of_word hw hc)
  rcases List.mem_map.mp hc2 with ⟨p, hp, hps⟩
  refine ⟨p.2, ?_⟩
  rw [← hps]
  exact hp

theorem trainTraceOf_headD_mem (table : FreqTable) (cfg : TrainerConfig) :
    (trainTraceOf table cfg).headD [] ∈ trainTraceOf table cfg := by
  obtain ⟨t, ht⟩ := trainTrace_cons cfg (mandatoryAlphabet table cfg) table
    ((seedVocab table cfg (mandatoryAlphabet table cfg)).length + 1)
    (seedVocab table cfg (mandatoryAlphabet table cfg))
  have h2 : trainTraceOf table cfg =
      seedVocab table cfg (mandatoryAlphabet table cfg) :: t := ht
  rw [h2]
  exact List.mem_cons_self _ _

/-- Witness for C2: the training word stays segmentable in the first
vocabulary of the run. -/
theorem C2_witness :
    (viterbi ((trainTraceOf wTable2 wCfg2).headD []) ['a']).isSome :=
  (C2_alphabet_invariant wTable2 wCfg2 ((trainTraceOf wTable2 wCfg2).headD [])
    (trainTraceOf_headD_mem wTable2 wCfg2)).2.2 ['a'] 1 (by decide)

/-- The configuration of the C3 counterexample: empty table together with
a target size smaller than alphabet + special tokens. -/
def cexCfg : TrainerConfig :=
  { vocabSize := 0, specialTokens := [['u']], initialAlphabet := [], unkToken := none,
    showProgress := false, seedSize := 1, shrinkPct := 20, emIters := 2 }

/-- C3 counterexample: on an empty table whose configuration also violates
the size bound, training reports `EmptyCorpus`, not the configuration
error, so the claim as stated (quantifying over every such configuration)
fails. -/
theorem C3_counterexample :
    cexCfg.vocabSize <
        (mandatoryAlphabet ([] : FreqTable) cexCfg).length + cexCfg.specialTokens.length ∧
      train ([] : FreqTable) cexCfg = .error .EmptyCorpus ∧
      TrainError.EmptyCorpus ≠ TrainError.VocabTooSmall :=
  ⟨by decide, rfl, by decide⟩

/-- C3 (amended): for a non-empty frequency table, a requested final
vocabulary size smaller than the mandatory alphabet size plus the number
of special tokens fails with `VocabTooSmall` before any EM or prune round
executes, and no model is produced. -/
theorem C3_vocab_too_small (table : FreqTable) (cfg : TrainerConfig)
    (hne : table ≠ [])
    (hsmall : cfg.vocabSize <
      (mandatoryAlphabet table cfg).length + cfg.specialTokens.length) :
    train table cfg = .error .VocabTooSmall := by
  have h1 : table.isEmpty = false := by
    cases table
    · exact absurd rfl hne
    · rfl
  simp [train, h1, hsmall]

/-- The configuration of the C3 witness. -/
def smallCfg : TrainerConfig :=
  { vocabSize := 0, specialTokens := [], initialAlphabet := [], unkToken := none,
    showProgress := false, seedSize := 0, shrinkPct := 20, emIters := 2 }

/-- Witness for the amended C3. -/
theorem C3_witness : train [(['a'], 1)] smallCfg = .error .VocabTooSmall :=
  C3_vocab_too_small [(['a'], 1)] smallCfg (by decide) (by decide)

/-- C4: training on an empty FrequencyTable fails immediately with
`EmptyCorpus`; no model is produced. -/
theorem C4_empty_corpus (table : FreqTable) (cfg : TrainerConfig) (h : table = []) :
    train table cfg = .error .EmptyCorpus := by
  subst h
  rfl

/-- Witness for C4. -/
theorem C4_witness : train ([] : FreqTable) wCfg = .error .EmptyCorpus :=
  C4_empty_corpus [] wCfg rfl

/-- C5 (amended): given a configuration that passes the size check, after
every pruning step of the round loop the vocabulary size strictly
decreases (the loop only prunes while above target) and never drops below
the target size, and every special token and mandatory alphabet singleton
is retained. -/
theorem C5_monotonic_shrink (table : FreqTable) (cfg : TrainerConfig)
    (hcard : (mandatoryAlphabet table cfg).length + cfg.specialTokens.length ≤
      cfg.vocabSize) :
    List.Chain' (ShrinkStep cfg (mandatoryAlphabet table cfg)) (trainTraceOf table cfg) :=
  trainTrace_chain (by omega) ((seedVocab table cfg (mandatoryAlphabet table cfg)).length + 1)
    (seedVocab table cfg (mandatoryAlphabet table cfg))
    (vocabOK_seed table cfg (mandatoryAlphabet table cfg))

/-- Witness for the amended C5. -/
theorem C5_witness :
    List.Chain' (ShrinkStep wCfg (mandatoryAlphabet wTable wCfg)) (trainTraceOf wTable wCfg) :=
  C5_monotonic_shrink wTable wCfg (by decide)

/-- C5 counterexample: the literal lower bound "target size + mandatory
alphabet + special tokens" is violated — in this run a post-prune
vocabulary has exactly the target size, which is smaller than that sum. -/
theorem C5_counterexample :
    ∃ v ∈ trainTraceOf wTable wCfg,
      v.length < wCfg.vocabSize + (mandatoryAlphabet wTable wCfg).length +
        wCfg.specialTokens.length := by decide

theorem surfaceIdx_getD (t : List Char) :
    ∀ (l : List Piece), (∃ q, (t, q) ∈ l) →
      (surfaceIdx t l).map (fun j => (surfaces l).getD j []) = some t := by
  intro l
  induction l with
  | nil =>
    rintro ⟨q, hq⟩
    simp at hq
  | cons a tl ih =>
    rintro ⟨q, hq⟩
    by_cases ha : a.1 = t
    · simp [surfaceIdx, ha, surfaces]
    · have htl : ∃ q, (t, q) ∈ tl := by
        rcases List.mem_cons.mp hq with h | h
        · exact absurd (congrArg Prod.fst h.symm) ha
        · exact ⟨q, h⟩
      have hih := ih htl
      rcases hs : surfaceIdx t tl with _ | j
      · rw [hs] at hih
        simp at hih
      · rw [hs] at hih
        simp only [Option.map_some'] at hih
        simp only [surfaceIdx, ha, if_false, hs, Option.map_some']
        simp only [surfaces, List.map_cons, List.getD_cons_succ]
        simp only [surfaces] at hih
        exact hih

theorem finalizeModel_spec (cfg : TrainerConfig) (v : Vocab) (t : List Char)
    (hunk : cfg.unkToken = some t) (hts : t ∈ cfg.specialTokens) :
    ((finalizeModel cfg v).pieces.take cfg.specialTokens.length =
        cfg.specialTokens.map (fun s => (s, (0 : ℚ)))) ∧
      List.Sorted descScore ((finalizeModel cfg v).pieces.drop cfg.specialTokens.length) ∧
      ((finalizeModel cfg v).pieces.drop cfg.specialTokens.length).Perm
        (v.filter (fun p => !(cfg.specialTokens.contains p.1))) ∧
      (finalizeModel cfg v).unkId.map
        (fun j => (surfaces (finalizeModel cfg v).pieces).getD j []) = some t := by
  have hpieces : (finalizeModel cfg v).pieces =
      cfg.specialTokens.map (fun s => (s, (0 : ℚ))) ++
        List.insertionSort descScore
          (v.filter (fun p => !(cfg.specialTokens.contains p.1))) := rfl
  have hlen : cfg.specialTokens.length =
      (cfg.specialTokens.map (fun s => (s, (0 : ℚ)))).length := (List.length_map _ _).symm
  refine ⟨?_, ?_, ?_, ?_⟩
  · rw [hpieces, hlen, List.take_left]
  · rw [hpieces, hlen, List.drop_left]
    exact List.sorted_insertionSort descScore _
  · rw [hpieces, hlen, List.drop_left]
    exact List.perm_insertionSort descScore _
  · have hunkid : (finalizeModel cfg v).unkId =
        surfaceIdx t (finalizeModel cfg v).pieces := by
      show cfg.unkToken.bind _ = _
      rw [hunk]
      rfl
    rw [hunkid]
    refine surfaceIdx_getD t _ ⟨0, ?_⟩
    rw [hpieces]
    exact List.mem_append.mpr (Or.inl (List.mem_map.mpr ⟨t, hts, rfl⟩))

/-- C7: the emitted model lists all special tokens first, in user order
with the conventional 0 score occupying the lowest ids, followed by the
trained (non-special) pieces of the final vocabulary sorted by descending
score; the designated unknown-piece id points at the configured unknown
token. -/
theorem C7_output_contract (table : FreqTable) (cfg : TrainerConfig) (t : List Char)
    (hunk : cfg.unkToken = some t) (hts : t ∈ cfg.specialTokens) :
    ((trainCore table cfg).pieces.take cfg.specialTokens.length =
        cfg.specialTokens.map (fun s => (s, (0 : ℚ)))) ∧
      List.Sorted descScore ((trainCore table cfg).pieces.drop cfg.specialTokens.length) ∧
      ((trainCore table cfg).pieces.drop cfg.specialTokens.length).Perm
        ((trainedVocab table cfg (mandatoryAlphabet table cfg)).filter
          (fun p => !(cfg.specialTokens.contains p.1))) ∧
      (trainCore table cfg).unkId.map
        (fun j => (surfaces (trainCore table cfg).pieces).getD j []) = some t :=
  finalizeModel_spec cfg (trainedVocab table cfg (mandatoryAlphabet table cfg)) t hunk hts

def wCfg7 : TrainerConfig :=
  { vocabSize := 3, specialTokens := [['u']], initialAlphabet := [], unkToken := some ['u'],
    showProgress := false, seedSize := 1, shrinkPct := 20, emIters := 2 }

/-- Witness for C7. -/
theorem C7_witness :
    ((trainCore wTable wCfg7).pieces.take wCfg7.specialTokens.length =
        wCfg7.specialTokens.map (fun s => (s, (0 : ℚ)))) ∧
      List.Sorted descScore ((trainCore wTable wCfg7).pieces.drop wCfg7.specialTokens.length) ∧
      ((trainCore wTable wCfg7).pieces.drop wCfg7.specialTokens.length).Perm
        ((trainedVocab wTable wCfg7 (mandatoryAlphabet wTable wCfg7)).filter
          (fun p => !(wCfg7.specialTokens.contains p.1))) ∧
      (trainCore wTable wCfg7).unkId.map
        (fun j => (surfaces (trainCore wTable wCfg7).pieces).getD j []) = some ['u'] :=
  C7_output_contract wTable wCfg7 ['u'] rfl (by decide)

theorem trainLoop_congr (table : FreqTable) (cfg cfg2 : TrainerConfig) (alpha : List Char)
    (hvs : cfg2.vocabSize = cfg.vocabSize)
    (hround : ∀ v, trainRound cfg2 alpha table v = trainRound cfg alpha table v) :
    ∀ (fuel : Nat) (v : Vocab),
      trainLoop cfg2 alpha table fuel v = trainLoop cfg alpha table fuel v := by
  intro fuel
  induction fuel with
  | zero => intro v; rfl
  | succ n ih =>
    intro v
    show (if v.length ≤ cfg2.vocabSize then v
        else trainLoop cfg2 alpha table n (trainRound cfg2 alpha table v)) =
      (if v.length ≤ cfg.vocabSize then v
        else trainLoop cfg alpha table n (trainRound cfg alpha table v))
    rw [hvs, hround]
    by_cases h : v.length ≤ cfg.vocabSize
    · rw [if_pos h, if_pos h]
    · rw [if_neg h, if_neg h]
      exact ih _

/-- C8: only the first character of each initial-alphabet string is used —
training output is unchanged when every initial-alphabet string is
truncated to its first character — and each such first character's
singleton piece is included in the emitted vocabulary even when it never
occurs in the training data. -/
theorem C8_initial_alphabet (table : FreqTable) (cfg : TrainerConfig) :
    (trainCore table { cfg with initialAlphabet := cfg.initialAlphabet.map (List.take 1) } =
        trainCore table cfg) ∧
      (∀ s ∈ cfg.initialAlphabet, ∀ c, s.head? = some c →
        [c] ∈ surfaces (trainCore table cfg).pieces) := by
  constructor
  · have hf : (List.head? ∘ List.take 1 : List Char → Option Char) = List.head? := by
      funext s
      cases s <;> rfl
    have halpha :
        mandatoryAlphabet table
            { cfg with initialAlphabet := cfg.initialAlphabet.map (List.take 1) } =
          mandatoryAlphabet table cfg := by
      unfold mandatoryAlphabet
      rw [show ({ cfg with initialAlphabet := cfg.initialAlphabet.map (List.take 1) } :
        TrainerConfig).initialAlphabet = cfg.initialAlphabet.map (List.take 1) from rfl]
      rw [List.filterMap_map, hf]
    show finalizeModel { cfg with initialAlphabet := cfg.initialAlphabet.map (List.take 1) }
        (trainedVocab table { cfg with initialAlphabet := cfg.initialAlphabet.map (List.take 1) }
          (mandatoryAlphabet table
            { cfg with initialAlphabet := cfg.initialAlphabet.map (List.take 1) })) =
      finalizeModel cfg (trainedVocab table cfg (mandatoryAlphabet table cfg))
    rw [halpha]
    unfold trainedVocab
    rw [show seedVocab table
        { cfg with initialAlphabet := cfg.initialAlphabet.map (List.take 1) }
        (mandatoryAlphabet table cfg) =
      seedVocab table cfg (mandatoryAlphabet table cfg) from rfl]
    rw [trainLoop_congr table cfg
      { cfg with initialAlphabet := cfg.initialAlphabet.map (List.take 1) }
      (mandatoryAlphabet table cfg) rfl (fun v => rfl)]
    rfl
  · intro s hs c hc
    have hca : c ∈ mandatoryAlphabet table cfg := by
      unfold mandatoryAlphabet
      refine List.mem_dedup.mpr (List.mem_append.mpr (Or.inr ?_))
      exact List.mem_filterMap.mpr ⟨s, hs, hc⟩
    obtain ⟨q, hq⟩ := trainCore_single_mem hca
    exact List.mem_map.mpr ⟨([c], q), hq, rfl⟩

def wCfg8 : TrainerConfig :=
  { vocabSize := 3, specialTokens := [], initialAlphabet := [['x', 'y']], unkToken := none,
    showProgress := false, seedSize := 1, shrinkPct := 20, emIters := 2 }

/-- Witness for C8: the initial-alphabet entry "xy" is longer than one
character and does not occur in the corpus, yet only its first character
is kept and included. -/
theorem C8_witness :
    (trainCore wTable
        { wCfg8 with initialAlphabet := wCfg8.initialAlphabet.map (List.take 1) } =
        trainCore wTable wCfg8) ∧
      ['x'] ∈ surfaces (trainCore wTable wCfg8).pieces :=
  ⟨(C8_initial_alphabet wTable wCfg8).1,
    (C8_initial_alphabet wTable wCfg8).2 ['x', 'y'] (by decide) 'x' rfl⟩

/-!
Modelled from the spec (§5 concurrency model): the E-step is data-parallel
over the word set.  Each worker accumulates expected counts over a private
chunk of the table; the partial results are merged (summed) at the end of
the pass.  The reduction is deterministic: the merged result equals the
sequential accumulation, for every partition of the table into chunks and
every merge (scheduling) order.
-/

/-- Merge the per-chunk partial expected-count accumulations. -/
def eStepChunks (v : Vocab) (chunks : List FreqTable) : CountF :=
  chunks.foldl (fun acc ch => addCount acc (eStep v ch)) zeroCount

/-- Deterministic partition of the table into chunks of `w + 1` words. -/
def chunksOf (w : Nat) (l : FreqTable) : List FreqTable :=
  if h : l = [] then [] else l.take (w + 1) :: chunksOf w (l.drop (w + 1))
termination_by l.length
decreasing_by
  simp only [List.length_drop]
  have := List.length_pos.mpr h
  omega

/-- The parallel E-step with `workers + 1` chunks feeding one M-step. -/
def emOncePar (workers : Nat) (table : FreqTable) (v : Vocab) : Vocab :=
  mStep v (eStepChunks v (chunksOf workers table))

def emPassPar (workers : Nat) (cfg : TrainerConfig) (table : FreqTable) (v : Vocab) : Vocab :=
  (emOncePar workers table)^[cfg.emIters] v

def trainRoundPar (workers : Nat) (cfg : TrainerConfig) (alpha : List Char)
    (table : FreqTable) (v : Vocab) : Vocab :=
  pruneStep cfg alpha table (emPassPar workers cfg table v)

def trainLoopPar (workers : Nat) (cfg : TrainerConfig) (alpha : List Char)
    (table : FreqTable) : Nat → Vocab → Vocab
  | 0, v => v
  | fuel + 1, v =>
      if v.length ≤ cfg.vocabSize then v
      else trainLoopPar workers cfg alpha table fuel (trainRoundPar workers cfg alpha table v)

/-- The training run with a parallel E-step over `workers + 1` chunks. -/
def trainCorePar (workers : Nat) (table : FreqTable) (cfg : TrainerConfig) : UnigramModel :=
  finalizeModel cfg (emPassPar workers cfg table
    (trainLoopPar workers cfg (mandatoryAlphabet table cfg) table
      ((seedVocab table cfg (mandatoryAlphabet table cfg)).length + 1)
      (seedVocab table cfg (mandatoryAlphabet table cfg))))

theorem addCount_assoc (f g h : CountF) :
    addCount (addCount f g) h = addCount f (addCount g h) := by
  funext s
  simp [addCount, add_assoc]

theorem addCount_comm (f g : CountF) : addCount f g = addCount g f := by
  funext s
  simp [addCount, add_comm]

theorem addCount_zero (f : CountF) : addCount f zeroCount = f := by
  funext s
  simp [addCount, zeroCount]

theorem zero_addCount (f : CountF) : addCount zeroCount f = f := by
  funext s
  simp [addCount, zeroCount]

theorem eStep_acc_shift (v : Vocab) :
    ∀ (l : FreqTable) (acc : CountF),
      l.foldl (fun acc e => addCount acc (wordCounts v e)) acc =
        addCount acc (eStep v l) := by
  intro l
  induction l with
  | nil =>
    intro acc
    exact (addCount_zero acc).symm
  | cons e tl ih =>
    intro acc
    show tl.foldl _ (addCount acc (wordCounts v e)) = _
    rw [ih]
    have he : eStep v (e :: tl) = addCount (wordCounts v e) (eStep v tl) := by
      show tl.foldl _ (addCount zeroCount (wordCounts v e)) = _
      rw [ih, zero_addCount]
    rw [he, addCount_assoc]

theorem eStep_append (v : Vocab) (l₁ l₂ : FreqTable) :
    eStep v (l₁ ++ l₂) = addCount (eStep v l₁) (eStep v l₂) := by
  unfold eStep
  rw [List.foldl_append]
  exact eStep_acc_shift v l₂ _

theorem eStepChunks_acc_shift (v : Vocab) :
    ∀ (chunks : List FreqTable) (acc : CountF),
      chunks.foldl (fun acc ch => addCount acc (eStep v ch)) acc =
        addCount acc (eStepChunks v chunks) := by
  intro chunks
  induction chunks with
  | nil =>
    intro acc
    exact (addCount_zero acc).symm
  | cons c tl ih =>
    intro acc
    show tl.foldl _ (addCount acc (eStep v c)) = _
    rw [ih]
    have hc : eStepChunks v (c :: tl) = addCount (eStep v c) (eStepChunks v tl) := by
      show tl.foldl _ (addCount zeroCount (eStep v c)) = _
      rw [ih, zero_addCount]
    rw [hc, addCount_assoc]

theorem eStepChunks_flatten (v : Vocab) :
    ∀ (chunks : List FreqTable), eStepChunks v chunks = eStep v chunks.flatten := by
  intro chunks
  induction chunks with
  | nil => rfl
  | cons c tl ih =>
    show (c :: tl).foldl _ zeroCount = _
    rw [List.foldl_cons, eStepChunks_acc_shift, zero_addCount, ih,
      List.flatten_cons, eStep_append]

theorem foldl_addCount_perm (v : Vocab) {c₁ c₂ : List FreqTable} (hp : c₁.Perm c₂) :
    ∀ (acc : CountF),
      c₁.foldl (fun acc ch => addCount acc (eStep v ch)) acc =
        c₂.foldl (fun acc ch => addCount acc (eStep v ch)) acc := by
  induction hp with
  | nil => intro acc; rfl
  | cons x h ih => intro acc; exact ih _
  | swap x y l =>
    intro acc
    show l.foldl _ (addCount (addCount acc (eStep v y)) (eStep v x)) =
      l.foldl _ (addCount (addCount acc (eStep v x)) (eStep v y))
    rw [addCount_assoc, addCount_assoc, addCount_comm (eStep v y) (eStep v x)]
  | trans h1 h2 ih1 ih2 => intro acc; rw [ih1, ih2]

theorem eStepChunks_perm (v : Vocab) {c₁ c₂ : List FreqTable} (hp : c₁.Perm c₂) :
    eStepChunks v c₁ = eStepChunks v c₂ :=
  foldl_addCount_perm v hp zeroCount

theorem chunksOf_flatten (w : Nat) :
    ∀ (n : Nat) (l : FreqTable), l.length ≤ n → (chunksOf w l).flatten = l := by
  intro n
  induction n with
  | zero =>
    intro l h
    have hl : l = [] := List.length_eq_zero.mp (Nat.le_zero.mp h)
    subst hl
    rw [chunksOf]
    simp
  | succ n ih =>
    intro l h
    by_cases hl : l = []
    · subst hl
      rw [chunksOf]
      simp
    · rw [chunksOf, dif_neg hl, List.flatten_cons, ih (l.drop (w + 1)) ?hlen,
        List.take_append_drop]
      case hlen =>
        simp only [List.length_drop]
        have := List.length_pos.mpr hl
        omega

theorem emOncePar_eq (workers : Nat) (table : FreqTable) (v : Vocab) :
    emOncePar workers table v = emOnce table v := by
  unfold emOncePar emOnce
  rw [eStepChunks_flatten, chunksOf_flatten workers table.length table le_rfl]

theorem emPassPar_eq (workers : Nat) (cfg : TrainerConfig) (table : FreqTable) (v : Vocab) :
    emPassPar workers cfg table v = emPass cfg table v := by
  unfold emPassPar emPass
  rw [funext (emOncePar_eq workers table)]

theorem trainLoopPar_eq (workers : Nat) (cfg : TrainerConfig) (alpha : List Char)
    (table : FreqTable) :
    ∀ (fuel : Nat) (v : Vocab),
      trainLoopPar workers cfg alpha table fuel v = trainLoop cfg alpha table fuel v := by
  intro fuel
  induction fuel with
  | zero => intro v; rfl
  | succ n ih =>
    intro v
    have hround : trainRoundPar workers cfg alpha table v = trainRound cfg alpha table v := by
      unfold trainRoundPar trainRound
      rw [emPassPar_eq]
    show (if v.length ≤ cfg.vocabSize then v
        else trainLoopPar workers cfg alpha table n (trainRoundPar workers cfg alpha table v)) =
      (if v.length ≤ cfg.vocabSize then v
        else trainLoop cfg alpha table n (trainRound cfg alpha table v))
    rw [hround, ih]

theorem trainCorePar_eq (workers : Nat) (table : FreqTable) (cfg : TrainerConfig) :
    trainCorePar workers table cfg = trainCore table cfg := by
  unfold trainCorePar trainCore trainedVocab
  rw [trainLoopPar_eq, emPassPar_eq]

/-- C6: training is a pure, deterministic function of the table and the
configuration: the output is identical for any two worker counts, the
parallel E-step reduction equals the sequential one for every partition
of the table into chunks, and merging worker results in any scheduling
order gives the same accumulation. -/
theorem C6_determinism (table : FreqTable) (cfg : TrainerConfig) :
    (∀ w₁ w₂ : Nat, trainCorePar w₁ table cfg = trainCorePar w₂ table cfg) ∧
      (∀ (v : Vocab) (chunks : List FreqTable), chunks.flatten = table →
        eStepChunks v chunks = eStep v table) ∧
      (∀ (v : Vocab) (c₁ c₂ : List FreqTable), c₁.Perm c₂ →
        eStepChunks v c₁ = eStepChunks v c₂) := by
  refine ⟨?_, ?_, ?_⟩
  · intro w₁ w₂
    rw [trainCorePar_eq, trainCorePar_eq]
  · intro v chunks h
    rw [eStepChunks_flatten, h]
  · intro v c₁ c₂ hp
    exact eStepChunks_perm v hp

/-- Witness for C6: two worker counts, a concrete two-chunk partition, and
a swapped merge order. -/
theorem C6_witness :
    trainCorePar 0 wTable wCfg = trainCorePar 1 wTable wCfg ∧
      eStepChunks [] [[(['a', 'b'], 1)], []] = eStep [] wTable ∧
      eStepChunks [] [[], [(['a', 'b'], 1)]] = eStepChunks [] [[(['a', 'b'], 1)], []] := by
  have h := C6_determinism wTable wCfg
  exact ⟨h.1 0 1, h.2.1 [] [[(['a', 'b'], 1)], []] (by decide),
    h.2.2 [] [[], [(['a', 'b'], 1)]] [[(['a', 'b'], 1)], []] (List.Perm.swap _ _ _)⟩

/-- C9: calling `train` with `files` given as a bare string `s` behaves
exactly as calling it with the one-element list `[s]` — same trainer
configuration, same file list passed to the underlying tokenizer. -/
theorem C9_files_string_eq_singleton (s : List Char) (vocab_size : Nat)
    (show_progress : Bool) (special_tokens initial_alphabet : Option (List (List Char)))
    (unk_token : Option (List Char)) :
    spuTrain (.single s) vocab_size show_progress special_tokens initial_alphabet unk_token =
      spuTrain (.many [s]) vocab_size show_progress special_tokens initial_alphabet unk_token :=
  rfl

/-- C10: `from_spm` raises exactly when the parsed model's
`trainer_spec.model_type` is not 1 (the Unigram type), and otherwise
returns the tokenizer built from the file's pieces as (surface, score)
vocabulary and its `unk_id` as the unknown-piece id. -/
theorem C10_from_spm_model_type (m : SpmModelProto) :
    (m.trainer_spec.model_type ≠ 1 → from_spm m = .error .notUnigram) ∧
      (m.trainer_spec.model_type = 1 → from_spm m =
        .ok ⟨m.pieces, m.trainer_spec.unk_id, m.normalizer_spec.precompiled_charsmap⟩) := by
  constructor
  · intro h
    simp [from_spm, h]
  · intro h
    simp [from_spm, h]

def wProtoBad : SpmModelProto :=
  { pieces := [], trainer_spec := { unk_id := 0, model_type := 2 },
    normalizer_spec := { precompiled_charsmap := [] } }

def wProtoGood : SpmModelProto :=
  { pieces := [(['a'], 1)], trainer_spec := { unk_id := 0, model_type := 1 },
    normalizer_spec := { precompiled_charsmap := [] } }

/-- Witness for C10: a BPE-typed proto is rejected, a Unigram-typed proto
is accepted with its pieces and unknown id. -/
theorem C10_witness :
    from_spm wProtoBad = .error .notUnigram ∧
      from_spm wProtoGood = .ok ⟨wProtoGood.pieces, 0, []⟩ :=
  ⟨(C10_from_spm_model_type wProtoBad).1 (by decide),
    (C10_from_spm_model_type wProtoGood).2 (by decide)⟩
